import Mathlib

/-!
Shallow embedding of `historical_backtest` from `web/modules/backtest.py`.

Modelling conventions:
* Calendar dates are day ordinals (`ℤ`): `datetime.strptime` produces a point
  on the day axis, `timedelta(days=n)` is `+ n`, and `current_date <= end_date_obj`
  is integer `≤`.  `total_days = (end_date_obj - current_date).days` is
  `end_date - start_date`.
* The decision engine (`ta.propagate`) is an opaque collaborator
  `String → ℤ → Except String Decision`; `Except.error e` models a raised
  Python exception whose `str(e)` is `e`.  The delayed-import fallback that
  substitutes a mock engine is part of obtaining the collaborator, not of the
  loop, and is outside the model.
* `decision.get(key, default)` on the returned dict is modelled by `Option`
  fields with `Option.getD`.
* Python float arithmetic on progress values is modelled over `ℚ`; the float
  division `processed_days / total_days` raises `ZeroDivisionError` exactly
  when `total_days = 0`, which the embedding makes explicit.
* Observable effects are recorded in an event trace: each invocation of the
  progress callback and each call of the decision engine appends an event.
  The control flow of the loop body (the `try` block: progress report first,
  then the engine call, any raise caught by the `except` which appends an
  error row) is mirrored line by line.
* The `while` loop is embedded with explicit fuel: `none` means the loop did
  not terminate within `fuel` iterations.  For `interval_days ≥ 1` enough
  fuel always exists (proved below); for `interval_days ≤ 0` the source loop
  never terminates, which the embedding reflects.
-/

/-- The dict returned by the decision engine: every field may be missing. -/
structure Decision where
  action : Option String
  confidence : Option ℚ
  risk_score : Option ℚ
deriving DecidableEq

/-- One row of the backtest result (`results.append(...)` in the source).
`error = none` models the success dict, which has no `"error"` key. -/
structure BacktestRow where
  date : ℤ
  action : String
  confidence : ℚ
  risk_score : ℚ
  error : Option String
deriving DecidableEq

/-- Observable effects of one run: progress-callback invocations and
decision-engine calls, in program order. -/
inductive BacktestEvent where
  | progressReport (value : ℚ) (message : String)
  | engineCall (symbol : String) (date : ℤ)
deriving DecidableEq

/-- The opaque decision engine: `ta.propagate(symbol, date)`. -/
abbrev Engine := String → ℤ → Except String Decision

/-- The progress callback: `progress_callback(progress, message)`. -/
abbrev ProgressHook := ℚ → String → Except String Unit

/-- The message `f"正在分析 {symbol} 在 {date_str} 的数据..."`. -/
def analysisMessage (symbol : String) (date : ℤ) : String :=
  "正在分析 " ++ symbol ++ " 在 " ++ toString date ++ " 的数据..."

/-- The success row: each field read with `decision.get(key, default)`. -/
def mkRow (date : ℤ) (decision : Decision) : BacktestRow :=
  { date := date
    action := decision.action.getD "hold"
    confidence := decision.confidence.getD (1/2)
    risk_score := decision.risk_score.getD (1/2)
    error := none }

/-- The row appended by the `except Exception as e` handler. -/
def errorRow (date : ℤ) (e : String) : BacktestRow :=
  { date := date, action := "error", confidence := 0, risk_score := 0, error := some e }

/-- Body of the `try` block for one date: report progress when a callback is
supplied (the division raises `ZeroDivisionError` when `total_days = 0`),
then call the engine and build the success row.  Returns the raised
exception or the row, together with the events that occurred. -/
def stepBody (engine : Engine) (hook : Option ProgressHook) (symbol : String)
    (total_days : ℤ) (date : ℤ) (processed_days : ℤ) :
    Except String BacktestRow × List BacktestEvent :=
  let runEngine : List BacktestEvent → Except String BacktestRow × List BacktestEvent :=
    fun evs =>
      match engine symbol date with
      | Except.ok decision => (Except.ok (mkRow date decision), evs ++ [.engineCall symbol date])
      | Except.error e => (Except.error e, evs ++ [.engineCall symbol date])
  match hook with
  | some f =>
      if total_days = 0 then
        (Except.error "ZeroDivisionError: division by zero", [])
      else
        let progress := min ((processed_days : ℚ) / (total_days : ℚ)) 1
        let msg := analysisMessage symbol date
        match f progress msg with
        | Except.ok _ => runEngine [.progressReport progress msg]
        | Except.error e => (Except.error e, [.progressReport progress msg])
  | none => runEngine []

/-- The row appended for one date: the success row when the `try` block ran
through, otherwise the error row built by the `except` handler from whatever
was raised. -/
def stepRow (engine : Engine) (hook : Option ProgressHook) (symbol : String)
    (total_days date processed_days : ℤ) : BacktestRow :=
  match (stepBody engine hook symbol total_days date processed_days).1 with
  | Except.ok r => r
  | Except.error e => errorRow date e

/-- The `while current_date <= end_date_obj` loop, with explicit fuel.
Each iteration appends exactly one row and records the events of its `try`
block, then advances both counters by `interval_days`. -/
def backtestLoop (engine : Engine) (hook : Option ProgressHook) (symbol : String)
    (total_days interval_days end_date : ℤ) :
    Nat → ℤ → ℤ → Option (List BacktestRow × List BacktestEvent)
  | 0, current_date, _ =>
    if current_date ≤ end_date then none else some ([], [])
  | Nat.succ fuel, current_date, processed_days =>
    if current_date ≤ end_date then
      match backtestLoop engine hook symbol total_days interval_days end_date fuel
          (current_date + interval_days) (processed_days + interval_days) with
      | none => none
      | some (rows, evs) =>
          some (stepRow engine hook symbol total_days current_date processed_days :: rows,
                (stepBody engine hook symbol total_days current_date processed_days).2 ++ evs)
    else
      some ([], [])

/-- `historical_backtest(symbol, start_date, end_date, interval_days,
progress_callback)`: sets `total_days = end_date - start_date` and
`processed_days = 0`, then runs the loop from `start_date`.  The LLM
configuration plumbing is read-only pass-through to the engine and is not
modelled.  The result is the list of rows (the returned DataFrame) plus the
event trace. -/
def historical_backtest (fuel : Nat) (symbol : String) (start_date end_date : ℤ)
    (interval_days : ℤ) (engine : Engine) (progress_hook : Option ProgressHook) :
    Option (List BacktestRow × List BacktestEvent) :=
  let total_days := end_date - start_date
  backtestLoop engine progress_hook symbol total_days interval_days end_date fuel start_date 0

/-- The progress values passed to the callback, in call order. -/
def progressValues (evs : List BacktestEvent) : List ℚ :=
  evs.filterMap fun e =>
    match e with
    | .progressReport v _ => some v
    | .engineCall _ _ => none

/-- Whether an event is an invocation of the decision engine. -/
def BacktestEvent.isEngineCall : BacktestEvent → Bool
  | .engineCall _ _ => true
  | .progressReport _ _ => false

/-- An engine that always succeeds with a fixed decision. -/
def constEngine (d : Decision) : Engine := fun _ _ => Except.ok d

/-- A sample fully-populated decision. -/
def sampleDecision : Decision :=
  { action := some "buy", confidence := some (7/10), risk_score := some (3/10) }

/-- A progress hook that never raises. -/
def okHook : ProgressHook := fun _ _ => Except.ok ()

/-- A progress hook that always raises. -/
def raisingHook : ProgressHook := fun _ _ => Except.error "boom"

/-! ### Step-level lemmas -/

/-- Every appended row carries the date of its iteration. -/
theorem stepRow_date (engine : Engine) (hook : Option ProgressHook) (symbol : String)
    (t d p : ℤ) : (stepRow engine hook symbol t d p).date = d := by
  unfold stepRow stepBody
  cases hook with
  | none => cases engine symbol d <;> simp [mkRow, errorRow]
  | some f =>
      by_cases ht : t = 0
      · simp [ht, errorRow]
      · simp only [if_neg ht]
        cases f (min ((p : ℚ) / (t : ℚ)) 1) (analysisMessage symbol d) <;>
          cases engine symbol d <;> simp [mkRow, errorRow]

/-- Every appended row is either a success row (no error field) or an error
row as the handler builds it. -/
theorem stepRow_classify (engine : Engine) (hook : Option ProgressHook) (symbol : String)
    (t d p : ℤ) :
    (∃ dec, stepRow engine hook symbol t d p = mkRow d dec) ∨
    (∃ e, stepRow engine hook symbol t d p = errorRow d e) := by
  unfold stepRow stepBody
  cases hook with
  | none =>
      cases h : engine symbol d with
      | ok dec => exact Or.inl ⟨dec, by simp [h]⟩
      | error e => exact Or.inr ⟨e, by simp [h]⟩
  | some f =>
      by_cases ht : t = 0
      · exact Or.inr ⟨"ZeroDivisionError: division by zero", by simp [ht]⟩
      · simp only [if_neg ht]
        cases hf : f (min ((p : ℚ) / (t : ℚ)) 1) (analysisMessage symbol d) with
        | error e => exact Or.inr ⟨e, by simp [hf]⟩
        | ok u =>
            cases h : engine symbol d with
            | ok dec => exact Or.inl ⟨dec, by simp [hf, h]⟩
            | error e => exact Or.inr ⟨e, by simp [hf, h]⟩

/-- When the progress report cannot fail (no hook, or a non-raising hook with
a nonzero span), the appended row is determined by the engine outcome. -/
theorem stepRow_of_progress_ok (engine : Engine) (hook : Option ProgressHook) (symbol : String)
    (t d p : ℤ)
    (hok : hook = none ∨ t ≠ 0 ∧ ∀ f, hook = some f → ∀ q m, f q m = Except.ok ()) :
    stepRow engine hook symbol t d p =
      match engine symbol d with
      | Except.ok dec => mkRow d dec
      | Except.error e => errorRow d e := by
  unfold stepRow stepBody
  cases hook with
  | none => cases engine symbol d <;> simp
  | some f =>
      rcases hok with hok | ⟨ht, hf⟩
      · exact absurd hok (by simp)
      · simp only [if_neg ht, hf f rfl]
        cases engine symbol d <;> simp

/-- Without a callback, the only event of a step is the engine call. -/
theorem stepEvents_none (engine : Engine) (symbol : String) (t d p : ℤ) :
    (stepBody engine none symbol t d p).2 = [BacktestEvent.engineCall symbol d] := by
  unfold stepBody
  cases engine symbol d <;> simp

/-- With a callback and a zero span, the division raises before any event. -/
theorem stepEvents_zerospan (engine : Engine) (f : ProgressHook) (symbol : String) (d p : ℤ) :
    (stepBody engine (some f) symbol 0 d p).2 = [] := by
  unfold stepBody
  simp

/-- With a callback and a nonzero span, exactly one progress value is passed
to the callback by the step: `min(processed_days / total_days, 1.0)`. -/
theorem stepProgress_some (engine : Engine) (f : ProgressHook) (symbol : String)
    (t d p : ℤ) (ht : t ≠ 0) :
    progressValues (stepBody engine (some f) symbol t d p).2
      = [min ((p : ℚ) / (t : ℚ)) 1] := by
  unfold stepBody
  simp only [if_neg ht]
  cases f (min ((p : ℚ) / (t : ℚ)) 1) (analysisMessage symbol d) <;>
    cases engine symbol d <;> simp [progressValues]

/-- Without a callback, a step passes no progress value. -/
theorem stepProgress_none (engine : Engine) (symbol : String) (t d p : ℤ) :
    progressValues (stepBody engine none symbol t d p).2 = [] := by
  rw [stepEvents_none]
  simp [progressValues]

/-- When the callback raises, the step never reaches the engine call, and the
handler catches the callback's own failure. -/
theorem step_raising_hook (engine : Engine) (f : ProgressHook) (symbol : String)
    (t d p : ℤ) (msg : String) (ht : t ≠ 0) (hf : ∀ q m, f q m = Except.error msg) :
    stepRow engine (some f) symbol t d p = errorRow d msg ∧
    ∀ ev ∈ (stepBody engine (some f) symbol t d p).2, ev.isEngineCall = false := by
  unfold stepRow stepBody
  simp only [if_neg ht, hf]
  constructor
  · trivial
  · intro ev hev
    simp at hev
    simp [hev, BacktestEvent.isEngineCall]

/-! ### Loop-level lemmas -/

/-- An inverted range produces no rows and no events, whatever the fuel. -/
theorem backtestLoop_neg (engine : Engine) (hook : Option ProgressHook) (symbol : String)
    (t i e : ℤ) (fuel : Nat) (c p : ℤ) (hc : e < c) :
    backtestLoop engine hook symbol t i e fuel c p = some ([], []) := by
  cases fuel <;> simp [backtestLoop, not_le.mpr hc]

/-- With a positive step, enough fuel always exists for the loop to finish. -/
theorem backtestLoop_isSome (engine : Engine) (hook : Option ProgressHook) (symbol : String)
    (t i e : ℤ) (hi : 1 ≤ i) :
    ∀ (fuel : Nat) (c p : ℤ), (e - c).toNat < fuel ∨ e < c →
      (backtestLoop engine hook symbol t i e fuel c p).isSome := by
  intro fuel
  induction fuel with
  | zero =>
      intro c p h
      have hc : e < c := by omega
      rw [backtestLoop_neg engine hook symbol t i e 0 c p hc]
      rfl
  | succ f ih =>
      intro c p h
      by_cases hc : c ≤ e
      · have hrec := ih (c + i) (p + i) (by omega)
        simp only [backtestLoop, if_pos hc]
        cases hr : backtestLoop engine hook symbol t i e f (c + i) (p + i) with
        | none => rw [hr] at hrec; simp at hrec
        | some v => cases v; simp
      · rw [backtestLoop_neg engine hook symbol t i e (f + 1) c p (by omega)]
        rfl

/-- Positional characterization: the k-th row of the loop is exactly the row
of the k-th iteration, at date `c + k·interval` and counter `p + k·interval`. -/
theorem backtestLoop_get (engine : Engine) (hook : Option ProgressHook) (symbol : String)
    (t i e : ℤ) :
    ∀ (fuel : Nat) (c p : ℤ) (rows : List BacktestRow) (evs : List BacktestEvent),
      backtestLoop engine hook symbol t i e fuel c p = some (rows, evs) →
      ∀ (k : Nat) (hk : k < rows.length),
        rows.get ⟨k, hk⟩ = stepRow engine hook symbol t (c + k * i) (p + k * i) := by
  intro fuel
  induction fuel with
  | zero =>
      intro c p rows evs h k hk
      by_cases hc : c ≤ e
      · simp [backtestLoop, hc] at h
      · simp [backtestLoop, hc] at h
        rw [h.1] at hk
        exact absurd hk (by simp)
  | succ f ih =>
      intro c p rows evs h k hk
      by_cases hc : c ≤ e
      · simp only [backtestLoop, if_pos hc] at h
        cases hr : backtestLoop engine hook symbol t i e f (c + i) (p + i) with
        | none => rw [hr] at h; simp at h
        | some v =>
            obtain ⟨rows', evs'⟩ := v
            rw [hr] at h
            simp at h
            obtain ⟨hrows, hevs⟩ := h
            subst hrows
            cases k with
            | zero => simp
            | succ m =>
                have hm : m < rows'.length := by
                  have := hk
                  simp at this
                  omega
                have := ih (c + i) (p + i) rows' evs' hr m hm
                simp only [List.get_cons_succ]
                rw [this]
                congr 1 <;> push_cast <;> ring
      · simp [backtestLoop, hc] at h
        rw [h.1] at hk
        exact absurd hk (by simp)

/-- Row count: one row per date of the arithmetic enumeration. -/
theorem backtestLoop_length (engine : Engine) (hook : Option ProgressHook) (symbol : String)
    (t i e : ℤ) (hi : 1 ≤ i) :
    ∀ (fuel : Nat) (c p : ℤ) (rows : List BacktestRow) (evs : List BacktestEvent),
      backtestLoop engine hook symbol t i e fuel c p = some (rows, evs) →
      rows.length = if c ≤ e then ((e - c) / i).toNat + 1 else 0 := by
  intro fuel
  induction fuel with
  | zero =>
      intro c p rows evs h
      by_cases hc : c ≤ e
      · simp [backtestLoop, hc] at h
      · simp [backtestLoop, hc] at h
        simp [h.1, hc]
  | succ f ih =>
      intro c p rows evs h
      by_cases hc : c ≤ e
      · simp only [backtestLoop, if_pos hc] at h
        cases hr : backtestLoop engine hook symbol t i e f (c + i) (p + i) with
        | none => rw [hr] at h; simp at h
        | some v =>
            obtain ⟨rows', evs'⟩ := v
            rw [hr] at h
            simp at h
            obtain ⟨hrows, _⟩ := h
            subst hrows
            have hlen := ih (c + i) (p + i) rows' evs' hr
            simp only [List.length_cons, hlen, if_pos hc]
            by_cases hc2 : c + i ≤ e
            · have hne : i ≠ 0 := by omega
              have hdiv : (e - c) / i = (e - c - i) / i + 1 := by
                have h0 : e - c - i + 1 * i = e - c := by ring
                have := Int.add_mul_ediv_right (e - c - i) 1 hne
                rw [h0] at this
                omega
              have hnn : 0 ≤ (e - c - i) / i := Int.ediv_nonneg (by omega) (by omega)
              obtain ⟨a, ha⟩ : ∃ a, (e - c - i) / i = a := ⟨_, rfl⟩
              obtain ⟨b, hb⟩ : ∃ b, (e - c) / i = b := ⟨_, rfl⟩
              rw [ha, hb] at hdiv
              rw [ha] at hnn
              have harg : e - (c + i) = e - c - i := by ring
              rw [if_pos hc2, harg, ha, hb]
              omega
            · have hzero : (e - c) / i = 0 :=
                Int.ediv_eq_zero_of_lt (by omega) (by omega)
              rw [if_neg hc2, hzero]
              simp
      · rw [backtestLoop_neg engine hook symbol t i e (f + 1) c p (by omega)] at h
        simp at h
        simp [h.1, hc]

/-- Every produced row's date stays within the requested range end. -/
theorem backtestLoop_dates_le (engine : Engine) (hook : Option ProgressHook) (symbol : String)
    (t i e : ℤ) :
    ∀ (fuel : Nat) (c p : ℤ) (rows : List BacktestRow) (evs : List BacktestEvent),
      backtestLoop engine hook symbol t i e fuel c p = some (rows, evs) →
      ∀ r ∈ rows, r.date ≤ e := by
  intro fuel
  induction fuel with
  | zero =>
      intro c p rows evs h r hr
      by_cases hc : c ≤ e
      · simp [backtestLoop, hc] at h
      · simp [backtestLoop, hc] at h
        rw [h.1] at hr
        simp at hr
  | succ f ih =>
      intro c p rows evs h r hr
      by_cases hc : c ≤ e
      · simp only [backtestLoop, if_pos hc] at h
        cases hrec : backtestLoop engine hook symbol t i e f (c + i) (p + i) with
        | none => rw [hrec] at h; simp at h
        | some v =>
            obtain ⟨rows', evs'⟩ := v
            rw [hrec] at h
            simp at h
            obtain ⟨hrows, _⟩ := h
            subst hrows
            rcases List.mem_cons.mp hr with hr0 | hrtl
            · rw [hr0, stepRow_date]
              exact hc
            · exact ih (c + i) (p + i) rows' evs' hrec r hrtl
      · simp [backtestLoop, hc] at h
        rw [h.1] at hr
        simp at hr

/-- Without a callback, no progress value is ever passed. -/
theorem backtestLoop_pv_none (engine : Engine) (symbol : String) (t i e : ℤ) :
    ∀ (fuel : Nat) (c p : ℤ) (rows : List BacktestRow) (evs : List BacktestEvent),
      backtestLoop engine none symbol t i e fuel c p = some (rows, evs) →
      progressValues evs = [] := by
  intro fuel
  induction fuel with
  | zero =>
      intro c p rows evs h
      by_cases hc : c ≤ e
      · simp [backtestLoop, hc] at h
      · simp [backtestLoop, hc] at h
        simp [h.2, progressValues]
  | succ f ih =>
      intro c p rows evs h
      by_cases hc : c ≤ e
      · simp only [backtestLoop, if_pos hc] at h
        cases hrec : backtestLoop engine none symbol t i e f (c + i) (p + i) with
        | none => rw [hrec] at h; simp at h
        | some v =>
            obtain ⟨rows', evs'⟩ := v
            rw [hrec] at h
            simp at h
            rw [← h.2, progressValues, List.filterMap_append]
            have h1 := stepProgress_none engine symbol t c p
            have h2 := ih (c + i) (p + i) rows' evs' hrec
            rw [progressValues] at h1 h2
            rw [h1, h2]
            rfl
      · simp [backtestLoop, hc] at h
        simp [h.2, progressValues]

/-- With a callback and a zero span, every iteration hits the division by
zero: every row is the `ZeroDivisionError` error row and no event occurs. -/
theorem backtestLoop_zerospan (engine : Engine) (f : ProgressHook) (symbol : String)
    (i e : ℤ) :
    ∀ (fuel : Nat) (c p : ℤ) (rows : List BacktestRow) (evs : List BacktestEvent),
      backtestLoop engine (some f) symbol 0 i e fuel c p = some (rows, evs) →
      (∀ r ∈ rows, r = errorRow r.date "ZeroDivisionError: division by zero") ∧ evs = [] := by
  intro fuel
  induction fuel with
  | zero =>
      intro c p rows evs h
      by_cases hc : c ≤ e
      · simp [backtestLoop, hc] at h
      · simp [backtestLoop, hc] at h
        refine ⟨?_, h.2⟩
        intro r hr
        rw [h.1] at hr
        simp at hr
  | succ fl ih =>
      intro c p rows evs h
      by_cases hc : c ≤ e
      · simp only [backtestLoop, if_pos hc] at h
        cases hrec : backtestLoop engine (some f) symbol 0 i e fl (c + i) (p + i) with
        | none => rw [hrec] at h; simp at h
        | some v =>
            obtain ⟨rows', evs'⟩ := v
            rw [hrec] at h
            simp at h
            obtain ⟨hih, hevs'⟩ := ih (c + i) (p + i) rows' evs' hrec
            refine ⟨?_, ?_⟩
            · intro r hr
              rw [← h.1] at hr
              rcases List.mem_cons.mp hr with hr0 | hrtl
              · rw [hr0]
                unfold stepRow stepBody
                simp [errorRow]
              · exact hih r hrtl
            · rw [← h.2, hevs', stepEvents_zerospan]
              rfl
      · simp [backtestLoop, hc] at h
        refine ⟨?_, h.2⟩
        intro r hr
        rw [h.1] at hr
        simp at hr

/-- With a callback that always raises and a nonzero span, every row records
the callback failure and the engine is never invoked. -/
theorem backtestLoop_raising (engine : Engine) (f : ProgressHook) (symbol : String)
    (t i e : ℤ) (msg : String) (ht : t ≠ 0) (hf : ∀ q m, f q m = Except.error msg) :
    ∀ (fuel : Nat) (c p : ℤ) (rows : List BacktestRow) (evs : List BacktestEvent),
      backtestLoop engine (some f) symbol t i e fuel c p = some (rows, evs) →
      (∀ r ∈ rows, r = errorRow r.date msg) ∧ ∀ ev ∈ evs, ev.isEngineCall = false := by
  intro fuel
  induction fuel with
  | zero =>
      intro c p rows evs h
      by_cases hc : c ≤ e
      · simp [backtestLoop, hc] at h
      · simp [backtestLoop, hc] at h
        refine ⟨?_, ?_⟩
        · intro x hx; rw [h.1] at hx; simp at hx
        · intro x hx; rw [h.2] at hx; simp at hx
  | succ fl ih =>
      intro c p rows evs h
      by_cases hc : c ≤ e
      · simp only [backtestLoop, if_pos hc] at h
        cases hrec : backtestLoop engine (some f) symbol t i e fl (c + i) (p + i) with
        | none => rw [hrec] at h; simp at h
        | some v =>
            obtain ⟨rows', evs'⟩ := v
            rw [hrec] at h
            simp at h
            obtain ⟨hihr, hihe⟩ := ih (c + i) (p + i) rows' evs' hrec
            obtain ⟨hsr, hse⟩ := step_raising_hook engine f symbol t c p msg ht hf
            refine ⟨?_, ?_⟩
            · intro r hr
              rw [← h.1] at hr
              rcases List.mem_cons.mp hr with hr0 | hrtl
              · rw [hr0, hsr]
                rfl
              · exact hihr r hrtl
            · intro ev hev
              rw [← h.2] at hev
              rcases List.mem_append.mp hev with hev1 | hev2
              · exact hse ev hev1
              · exact hihe ev hev2
      · simp [backtestLoop, hc] at h
        refine ⟨?_, ?_⟩
        · intro x hx; rw [h.1] at hx; simp at hx
        · intro x hx; rw [h.2] at hx; simp at hx

/-- Division of a larger nonnegative counter by the same positive span gives
a pointwise larger clamped progress value. -/
theorem clamped_progress_mono (p i t : ℤ) (hi : 0 ≤ i) (ht : 0 < t) :
    min ((p : ℚ) / (t : ℚ)) 1 ≤ min (((p + i : ℤ) : ℚ) / (t : ℚ)) 1 := by
  apply min_le_min _ le_rfl
  have htq : (0 : ℚ) < (t : ℚ) := by exact_mod_cast ht
  rw [div_le_div_iff_of_pos_right htq]
  have hiq : (0 : ℚ) ≤ (i : ℚ) := by exact_mod_cast hi
  push_cast
  linarith

/-- With a positive span, the progress values the loop passes are clamped to
`[0, 1]`, bounded below by the clamped progress of the current counter, and
non-decreasing in call order. -/
theorem backtestLoop_progress (engine : Engine) (hook : Option ProgressHook) (symbol : String)
    (t i e : ℤ) (hi : 1 ≤ i) (ht : 0 < t) :
    ∀ (fuel : Nat) (c p : ℤ) (rows : List BacktestRow) (evs : List BacktestEvent), 0 ≤ p →
      backtestLoop engine hook symbol t i e fuel c p = some (rows, evs) →
      List.Pairwise (· ≤ ·) (progressValues evs) ∧
      ∀ v ∈ progressValues evs, min ((p : ℚ) / (t : ℚ)) 1 ≤ v ∧ 0 ≤ v ∧ v ≤ 1 := by
  intro fuel
  induction fuel with
  | zero =>
      intro c p rows evs hp h
      by_cases hc : c ≤ e
      · simp [backtestLoop, hc] at h
      · simp [backtestLoop, hc] at h
        simp [h.2, progressValues]
  | succ f ih =>
      intro c p rows evs hp h
      by_cases hc : c ≤ e
      · simp only [backtestLoop, if_pos hc] at h
        cases hrec : backtestLoop engine hook symbol t i e f (c + i) (p + i) with
        | none => rw [hrec] at h; simp at h
        | some v =>
            obtain ⟨rows', evs'⟩ := v
            rw [hrec] at h
            simp at h
            obtain ⟨hpair', hbound'⟩ := ih (c + i) (p + i) rows' evs' (by omega) hrec
            have hmono := clamped_progress_mono p i t (by omega) ht
            rw [← h.2, progressValues, List.filterMap_append]
            cases hook with
            | none =>
                have h1 := stepProgress_none engine symbol t c p
                rw [progressValues] at h1
                rw [h1]
                refine ⟨by simpa using hpair', ?_⟩
                intro v hv
                simp only [List.nil_append] at hv
                obtain ⟨hlow, hnn, hle⟩ := hbound' v hv
                exact ⟨le_trans hmono hlow, hnn, hle⟩
            | some hookFn =>
                have h1 := stepProgress_some engine hookFn symbol t c p (by omega)
                rw [progressValues] at h1
                rw [h1]
                have hv0nn : (0 : ℚ) ≤ min ((p : ℚ) / (t : ℚ)) 1 := by
                  apply le_min _ zero_le_one
                  apply div_nonneg
                  · exact_mod_cast hp
                  · exact_mod_cast le_of_lt ht
                refine ⟨?_, ?_⟩
                · rw [List.singleton_append, List.pairwise_cons]
                  refine ⟨?_, hpair'⟩
                  intro v hv
                  exact le_trans hmono (hbound' v hv).1
                · intro v hv
                  rcases List.mem_cons.mp hv with hv0 | hvtl
                  · rw [hv0]
                    exact ⟨le_rfl, hv0nn, min_le_right _ _⟩
                  · obtain ⟨hlow, hnn, hle⟩ := hbound' v hvtl
                    exact ⟨le_trans hmono hlow, hnn, hle⟩
      · simp [backtestLoop, hc] at h
        simp [h.2, progressValues]

/-- When the progress report cannot fail, every row of a run is determined by
the engine outcome at its own date: the success row on `Except.ok`, the
handler's error row on `Except.error`. -/
theorem backtest_rows_of_progress_ok (fuel : Nat) (symbol : String)
    (start_date end_date interval_days : ℤ) (engine : Engine) (hook : Option ProgressHook)
    (rows : List BacktestRow) (evs : List BacktestEvent)
    (hok : hook = none ∨ (end_date - start_date ≠ 0 ∧
      ∀ f, hook = some f → ∀ q m, f q m = Except.ok ()))
    (hrun : historical_backtest fuel symbol start_date end_date interval_days engine hook
      = some (rows, evs)) :
    ∀ r ∈ rows,
      r = match engine symbol r.date with
          | Except.ok dec => mkRow r.date dec
          | Except.error err => errorRow r.date err := by
  have hrun' : backtestLoop engine hook symbol (end_date - start_date) interval_days end_date
      fuel start_date 0 = some (rows, evs) := hrun
  intro r hr
  obtain ⟨⟨k, hk⟩, hrk⟩ := List.mem_iff_get.mp hr
  have hget := backtestLoop_get engine hook symbol (end_date - start_date) interval_days
    end_date fuel start_date 0 rows evs hrun' k hk
  rw [← hrk, hget, stepRow_date]
  exact stepRow_of_progress_ok engine hook symbol (end_date - start_date)
    (start_date + k * interval_days) (0 + k * interval_days) hok

/-! ### Concrete fixtures for witnesses and counterexamples -/

/-- Rows of the reference scenario: dates 0, 7, 14 (a 15-day range, step 7). -/
def scenarioRows : List BacktestRow :=
  [mkRow 0 sampleDecision, mkRow 7 sampleDecision, mkRow 14 sampleDecision]

/-- Events of the reference scenario without a callback. -/
def scenarioEvents : List BacktestEvent :=
  [.engineCall "AAPL" 0, .engineCall "AAPL" 7, .engineCall "AAPL" 14]

/-- A decision with a missing confidence field and a non-standard action. -/
def oddDecision : Decision :=
  { action := some "wait", confidence := none, risk_score := some (1/4) }

/-- An engine raising exactly at date 7. -/
def failAt7Engine : Engine := fun _ d =>
  if d = 7 then Except.error "network down" else Except.ok sampleDecision

/-- Rows of the reference scenario when the engine raises only at date 7. -/
def failAt7Rows : List BacktestRow :=
  [mkRow 0 sampleDecision, errorRow 7 "network down", mkRow 14 sampleDecision]

/-! ### Claims -/

/-- Claim C1: with `interval_days ≥ 1` and parsed dates, a completed run
returns exactly one row per date of the arithmetic sequence `start_date,
start_date + interval_days, …` restricted to dates `≤ end_date`, in that
order; when `start_date > end_date` the result is empty and no event occurs,
so the decision engine is never called. -/
theorem backtest_rows_enumerate_dates (fuel : Nat) (symbol : String)
    (start_date end_date interval_days : ℤ) (engine : Engine) (hook : Option ProgressHook)
    (rows : List BacktestRow) (evs : List BacktestEvent)
    (hi : 1 ≤ interval_days)
    (hrun : historical_backtest fuel symbol start_date end_date interval_days engine hook
      = some (rows, evs)) :
    (∀ (k : Nat) (hk : k < rows.length),
        (rows.get ⟨k, hk⟩).date = start_date + k * interval_days) ∧
    (∀ r ∈ rows, r.date ≤ end_date) ∧
    rows.length = (if start_date ≤ end_date
      then ((end_date - start_date) / interval_days).toNat + 1 else 0) ∧
    (end_date < start_date → rows = [] ∧ evs = []) := by
  have hrun' : backtestLoop engine hook symbol (end_date - start_date) interval_days end_date
      fuel start_date 0 = some (rows, evs) := hrun
  refine ⟨?_, ?_, ?_, ?_⟩
  · intro k hk
    rw [backtestLoop_get engine hook symbol _ _ _ fuel start_date 0 rows evs hrun' k hk,
      stepRow_date]
  · exact backtestLoop_dates_le engine hook symbol _ _ _ fuel start_date 0 rows evs hrun'
  · exact backtestLoop_length engine hook symbol _ _ _ hi fuel start_date 0 rows evs hrun'
  · intro hlt
    rw [backtestLoop_neg engine hook symbol _ _ _ fuel start_date 0 hlt] at hrun'
    simp at hrun'
    exact ⟨hrun'.1, hrun'.2⟩

/-- Witness for claim C1 at the reference scenario: three dates fit in the
range, so the run yields three rows. -/
theorem backtest_rows_enumerate_dates_witness : scenarioRows.length = 3 := by
  have h := backtest_rows_enumerate_dates 3 "AAPL" 0 14 7 (constEngine sampleDecision) none
    scenarioRows scenarioEvents (by decide) (by rfl)
  rw [h.2.2.1]
  decide

/-- Claim C3 (code bug): the source computes `total_days` as the raw span
with no `max(…, 1)` guard, so a single-day range with a callback divides by
zero; the per-date handler converts it into an error row even though the
engine never fails, and the engine is not called at all. -/
theorem backtest_single_day_with_hook_divides_by_zero :
    historical_backtest 1 "AAPL" 0 0 7 (constEngine sampleDecision) (some okHook)
      = some ([errorRow 0 "ZeroDivisionError: division by zero"], []) := by
  rfl

/-- Claim C4 counterexample: a callback that raises does not make the run
fail; the run returns normally with the callback failures recorded as error
rows, so the failure is caught by the Runner rather than propagated. -/
theorem backtest_hook_failure_not_propagated_cex :
    historical_backtest 2 "AAPL" 0 7 7 (constEngine sampleDecision) (some raisingHook)
      = some ([errorRow 0 "boom", errorRow 7 "boom"],
          [BacktestEvent.progressReport 0 (analysisMessage "AAPL" 0),
           BacktestEvent.progressReport 1 (analysisMessage "AAPL" 7)]) := by
  show backtestLoop (constEngine sampleDecision) (some raisingHook) "AAPL" (7 - 0) 7 7
      (Nat.succ (Nat.succ 0)) 0 0 = _
  norm_num [backtestLoop, stepRow, stepBody, raisingHook, errorRow]

/-- Claim C4 as amended: the callback runs inside the per-date `try`, so a
raising callback is caught like an engine failure: its message is recorded
in that date's error row, the loop continues, and the engine is never
reached on such dates. -/
theorem backtest_hook_failure_caught (fuel : Nat) (symbol : String)
    (start_date end_date interval_days : ℤ) (msg : String)
    (engine : Engine) (f : ProgressHook)
    (rows : List BacktestRow) (evs : List BacktestEvent)
    (ht : end_date - start_date ≠ 0)
    (hf : ∀ q m, f q m = Except.error msg)
    (hrun : historical_backtest fuel symbol start_date end_date interval_days engine (some f)
      = some (rows, evs)) :
    (∀ r ∈ rows, r = errorRow r.date msg) ∧ ∀ ev ∈ evs, ev.isEngineCall = false :=
  backtestLoop_raising engine f symbol _ _ _ msg ht hf fuel start_date 0 rows evs hrun

/-- Witness for the amended claim C4: in the concrete raising-callback run no
event is an engine call. -/
theorem backtest_hook_failure_caught_witness :
    (BacktestEvent.progressReport 0 (analysisMessage "AAPL" 0)).isEngineCall = false := by
  have h := backtest_hook_failure_caught 2 "AAPL" 0 7 7 "boom" (constEngine sampleDecision)
    raisingHook [errorRow 0 "boom", errorRow 7 "boom"]
    [BacktestEvent.progressReport 0 (analysisMessage "AAPL" 0),
     BacktestEvent.progressReport 1 (analysisMessage "AAPL" 7)]
    (by decide) (fun q m => rfl)
    (by show backtestLoop (constEngine sampleDecision) (some raisingHook) "AAPL" (7 - 0) 7 7
          (Nat.succ (Nat.succ 0)) 0 0 = _
        norm_num [backtestLoop, stepRow, stepBody, raisingHook, errorRow])
  exact h.2 _ (by simp)

/-- Claim C5 (code bug): the source validates nothing before the loop: with
`interval_days = 0` and a non-inverted range the loop never terminates
(no amount of fuel suffices), and an empty symbol is passed straight to the
engine and produces a row instead of failing fast. -/
theorem backtest_no_request_validation :
    (∀ fuel : Nat, historical_backtest fuel "AAPL" 0 0 0 (constEngine sampleDecision) none
      = none) ∧
    historical_backtest 1 "" 0 0 7 (constEngine sampleDecision) none
      = some ([mkRow 0 sampleDecision], [BacktestEvent.engineCall "" 0]) := by
  constructor
  · intro fuel
    induction fuel with
    | zero => rfl
    | succ f ih =>
        have ih' : backtestLoop (constEngine sampleDecision) none "AAPL" (0 - 0) 0 0 f 0 0
            = none := ih
        show backtestLoop (constEngine sampleDecision) none "AAPL" (0 - 0) 0 0 (f + 1) 0 0
            = none
        simp only [backtestLoop, if_pos (le_refl (0 : ℤ)), add_zero]
        rw [ih']
  · rfl

/-- In a degenerate range, the only enumerable date is the start itself. -/
theorem date_in_degenerate_range (s i d : ℤ) (hi : 1 ≤ i)
    (hd : ∃ k : Nat, d = s + k * i ∧ d ≤ s) : d = s := by
  obtain ⟨k, hk, hle⟩ := hd
  have hknn : (0 : ℤ) ≤ (k : ℤ) := Int.natCast_nonneg k
  have hk0 : (k : ℤ) = 0 := by
    by_contra hne
    have hk1 : (1 : ℤ) ≤ (k : ℤ) := by omega
    have : (1 : ℤ) * 1 ≤ (k : ℤ) * i := mul_le_mul hk1 hi (by omega) (by omega)
    omega
  rw [hk, hk0, zero_mul, add_zero]

/-- Claim C2: if the decision engine raises at exactly one enumerated date
and the progress callback never raises, then exactly that date's row carries
`action = "error"`, `confidence = 0`, `risk_score = 0` and a failure
description, while every other date's row is built normally from the
engine's outcome. -/
theorem backtest_engine_failure_isolated (fuel : Nat) (symbol : String)
    (start_date end_date interval_days d0 : ℤ) (msg : String) (out : ℤ → Decision)
    (engine : Engine) (hook : Option ProgressHook)
    (rows : List BacktestRow) (evs : List BacktestEvent)
    (hi : 1 ≤ interval_days)
    (hhook : ∀ f, hook = some f → ∀ q m, f q m = Except.ok ())
    (hd0 : ∃ k : Nat, d0 = start_date + k * interval_days ∧ d0 ≤ end_date)
    (hbad : engine symbol d0 = Except.error msg)
    (hok : ∀ d, d ≠ d0 → engine symbol d = Except.ok (out d))
    (hrun : historical_backtest fuel symbol start_date end_date interval_days engine hook
      = some (rows, evs)) :
    ∀ r ∈ rows,
      (r.date = d0 → r.action = "error" ∧ r.confidence = 0 ∧ r.risk_score = 0 ∧
        r.error.isSome = true) ∧
      (r.date ≠ d0 → r = mkRow r.date (out r.date)) := by
  have hrun' : backtestLoop engine hook symbol (end_date - start_date) interval_days end_date
      fuel start_date 0 = some (rows, evs) := hrun
  by_cases hz : (∃ f, hook = some f) ∧ end_date - start_date = 0
  · obtain ⟨⟨f, hfk⟩, ht⟩ := hz
    subst hfk
    rw [ht] at hrun'
    have hzl := backtestLoop_zerospan engine f symbol interval_days end_date fuel
      start_date 0 rows evs hrun'
    have hse : end_date = start_date := by omega
    have hd0s : d0 = start_date := by
      apply date_in_degenerate_range start_date interval_days d0 hi
      obtain ⟨k, hk, hkle⟩ := hd0
      exact ⟨k, hk, by omega⟩
    intro r hr
    have hrdate : r.date = start_date := by
      obtain ⟨⟨k, hklt⟩, hrk⟩ := List.mem_iff_get.mp hr
      have hget := backtestLoop_get engine (some f) symbol 0 interval_days end_date fuel
        start_date 0 rows evs hrun' k hklt
      have hle := backtestLoop_dates_le engine (some f) symbol 0 interval_days end_date fuel
        start_date 0 rows evs hrun' r hr
      apply date_in_degenerate_range start_date interval_days r.date hi
      refine ⟨k, ?_, by omega⟩
      rw [← hrk, hget, stepRow_date]
    constructor
    · intro _
      rw [hzl.1 r hr]
      exact ⟨rfl, rfl, rfl, rfl⟩
    · intro hne
      exact absurd (hrdate.trans hd0s.symm) hne
  · have hok2 : hook = none ∨ (end_date - start_date ≠ 0 ∧
        ∀ f, hook = some f → ∀ q m, f q m = Except.ok ()) := by
      cases hh : hook with
      | none => exact Or.inl rfl
      | some f =>
          right
          refine ⟨?_, by rw [← hh]; exact hhook⟩
          intro ht
          exact hz ⟨⟨f, hh⟩, ht⟩
    have hform := backtest_rows_of_progress_ok fuel symbol start_date end_date interval_days
      engine hook rows evs hok2 hrun
    intro r hr
    have hfr := hform r hr
    constructor
    · intro heq
      rw [heq, hbad] at hfr
      rw [hfr]
      exact ⟨rfl, rfl, rfl, rfl⟩
    · intro hne
      rw [hok r.date hne] at hfr
      exact hfr

/-- Witness for claim C2 at the scenario where the engine raises only at
date 7: that row is the marked error row. -/
theorem backtest_engine_failure_isolated_witness :
    (errorRow 7 "network down").confidence = 0 ∧
    (errorRow 7 "network down").error.isSome = true := by
  have h := backtest_engine_failure_isolated 3 "AAPL" 0 14 7 7 "network down"
    (fun _ => sampleDecision) failAt7Engine none failAt7Rows scenarioEvents
    (by decide) (by intro f hf; cases hf) ⟨1, by decide⟩ (by rfl)
    (by intro d hd; simp [failAt7Engine, hd]) (by rfl)
  have hm := h (errorRow 7 "network down") (by simp [failAt7Rows])
  obtain ⟨_, hc, _, hs⟩ := hm.1 (by rfl)
  exact ⟨hc, hs⟩

/-- Claim C6: for a valid request (positive interval) with enough fuel, the
run always returns a result — whatever the engine and the callback raise is
caught inside the loop — and every returned row is either a normal row
(no error field) or a distinguishable error row. -/
theorem backtest_never_raises_rows_distinguishable (fuel : Nat) (symbol : String)
    (start_date end_date interval_days : ℤ) (engine : Engine) (hook : Option ProgressHook)
    (hi : 1 ≤ interval_days) (hfuel : (end_date - start_date).toNat < fuel) :
    (historical_backtest fuel symbol start_date end_date interval_days engine hook).isSome
      = true ∧
    ∀ rows evs,
      historical_backtest fuel symbol start_date end_date interval_days engine hook
        = some (rows, evs) →
      ∀ r ∈ rows, r.error = none ∨
        (r.action = "error" ∧ r.confidence = 0 ∧ r.risk_score = 0 ∧
          r.error.isSome = true) := by
  constructor
  · exact backtestLoop_isSome engine hook symbol (end_date - start_date) interval_days
      end_date hi fuel start_date 0 (Or.inl hfuel)
  · intro rows evs hrun r hr
    have hrun' : backtestLoop engine hook symbol (end_date - start_date) interval_days
        end_date fuel start_date 0 = some (rows, evs) := hrun
    obtain ⟨⟨k, hk⟩, hrk⟩ := List.mem_iff_get.mp hr
    have hget := backtestLoop_get engine hook symbol (end_date - start_date) interval_days
      end_date fuel start_date 0 rows evs hrun' k hk
    rcases stepRow_classify engine hook symbol (end_date - start_date)
        (start_date + k * interval_days) (0 + k * interval_days) with ⟨dec, hdec⟩ | ⟨e, he⟩
    · left
      rw [← hrk, hget, hdec]
      rfl
    · right
      rw [← hrk, hget, he]
      exact ⟨rfl, rfl, rfl, rfl⟩

/-- Witness for claim C6: the single-day run completes. -/
theorem backtest_never_raises_rows_distinguishable_witness :
    (historical_backtest 1 "AAPL" 0 0 7 (constEngine sampleDecision) none).isSome = true :=
  (backtest_never_raises_rows_distinguishable 1 "AAPL" 0 0 7 (constEngine sampleDecision)
    none (by decide) (by decide)).1

/-- Claim C7: when the engine succeeds on every date of a run without a
callback, each row defaults every missing decision field — `action` to
`"hold"`, `confidence` and `risk_score` to `0.5` — and copies present fields
through unchanged, whatever string the action holds. -/
theorem backtest_defaults_missing_fields (fuel : Nat) (symbol : String)
    (start_date end_date interval_days : ℤ) (engine : Engine) (out : ℤ → Decision)
    (rows : List BacktestRow) (evs : List BacktestEvent)
    (hi : 1 ≤ interval_days)
    (heng : ∀ d, engine symbol d = Except.ok (out d))
    (hrun : historical_backtest fuel symbol start_date end_date interval_days engine none
      = some (rows, evs)) :
    ∀ r ∈ rows,
      r.action = (out r.date).action.getD "hold" ∧
      r.confidence = (out r.date).confidence.getD (1/2) ∧
      r.risk_score = (out r.date).risk_score.getD (1/2) ∧
      r.error = none := by
  intro r hr
  have hfr := backtest_rows_of_progress_ok fuel symbol start_date end_date interval_days
    engine none rows evs (Or.inl rfl) hrun r hr
  rw [heng r.date] at hfr
  rw [hfr]
  exact ⟨rfl, rfl, rfl, rfl⟩

/-- Witness for claim C7: a decision with action "wait", no confidence and
risk 1/4 yields a row with action "wait", confidence 0.5 and risk 1/4. -/
theorem backtest_defaults_missing_fields_witness :
    (mkRow 0 oddDecision).action = "wait" ∧ (mkRow 0 oddDecision).confidence = 1/2 ∧
    (mkRow 0 oddDecision).risk_score = 1/4 := by
  have h := backtest_defaults_missing_fields 1 "AAPL" 0 0 3 (constEngine oddDecision)
    (fun _ => oddDecision) [mkRow 0 oddDecision] [BacktestEvent.engineCall "AAPL" 0]
    (by decide) (fun d => rfl) (by rfl)
  obtain ⟨ha, hc, hrs, _⟩ := h (mkRow 0 oddDecision) (by simp)
  exact ⟨ha.trans (by rfl), hc.trans (by rfl), hrs.trans (by rfl)⟩

/-- Claim C8: over any completed run, the progress values passed to the
callback are non-decreasing in call order and all lie in `[0, 1]`. -/
theorem backtest_progress_monotone_bounded (fuel : Nat) (symbol : String)
    (start_date end_date interval_days : ℤ) (engine : Engine) (hook : Option ProgressHook)
    (rows : List BacktestRow) (evs : List BacktestEvent)
    (hi : 1 ≤ interval_days)
    (hrun : historical_backtest fuel symbol start_date end_date interval_days engine hook
      = some (rows, evs)) :
    List.Pairwise (· ≤ ·) (progressValues evs) ∧
    ∀ v ∈ progressValues evs, 0 ≤ v ∧ v ≤ 1 := by
  have hrun' : backtestLoop engine hook symbol (end_date - start_date) interval_days end_date
      fuel start_date 0 = some (rows, evs) := hrun
  rcases lt_trichotomy (end_date - start_date) 0 with ht | ht | ht
  · rw [backtestLoop_neg engine hook symbol _ _ _ fuel start_date 0 (by omega)] at hrun'
    simp at hrun'
    rw [hrun'.2]
    simp [progressValues]
  · cases hook with
    | none =>
        have hpv := backtestLoop_pv_none engine symbol (end_date - start_date) interval_days
          end_date fuel start_date 0 rows evs hrun'
        rw [hpv]
        simp
    | some f =>
        rw [ht] at hrun'
        have hzl := backtestLoop_zerospan engine f symbol interval_days end_date fuel
          start_date 0 rows evs hrun'
        rw [hzl.2]
        simp [progressValues]
  · obtain ⟨hpair, hbound⟩ := backtestLoop_progress engine hook symbol (end_date - start_date)
      interval_days end_date hi ht fuel start_date 0 rows evs le_rfl hrun'
    exact ⟨hpair, fun v hv => ⟨(hbound v hv).2.1, (hbound v hv).2.2⟩⟩

/-- Events of the reference scenario with a never-raising callback:
progress 0, 1/2, 1. -/
def hookedEvents : List BacktestEvent :=
  [.progressReport 0 (analysisMessage "AAPL" 0), .engineCall "AAPL" 0,
   .progressReport (1/2) (analysisMessage "AAPL" 7), .engineCall "AAPL" 7,
   .progressReport 1 (analysisMessage "AAPL" 14), .engineCall "AAPL" 14]

/-- Witness for claim C8: in the hooked reference run the middle progress
value 1/2 is within bounds. -/
theorem backtest_progress_monotone_bounded_witness :
    (0 : ℚ) ≤ 1/2 ∧ (1/2 : ℚ) ≤ 1 := by
  have h := backtest_progress_monotone_bounded 3 "AAPL" 0 14 7 (constEngine sampleDecision)
    (some okHook) scenarioRows hookedEvents (by decide)
    (by show backtestLoop (constEngine sampleDecision) (some okHook) "AAPL" (14 - 0) 7 14
          (Nat.succ (Nat.succ (Nat.succ 0))) 0 0 = _
        norm_num [backtestLoop, stepRow, stepBody, okHook, constEngine, scenarioRows,
          hookedEvents, mkRow, sampleDecision])
  exact h.2 (1/2)
    (by show (1/2 : ℚ) ∈ [(0 : ℚ), 1/2, 1]
        exact List.mem_cons_of_mem _ (List.mem_cons_self _ _))

/-- Claim C9: across any completed run the row dates are strictly
increasing: no duplicates and no reordering relative to insertion order. -/
theorem backtest_dates_strictly_increasing (fuel : Nat) (symbol : String)
    (start_date end_date interval_days : ℤ) (engine : Engine) (hook : Option ProgressHook)
    (rows : List BacktestRow) (evs : List BacktestEvent)
    (hi : 1 ≤ interval_days)
    (hrun : historical_backtest fuel symbol start_date end_date interval_days engine hook
      = some (rows, evs)) :
    List.Pairwise (fun r1 r2 => r1.date < r2.date) rows := by
  have hrun' : backtestLoop engine hook symbol (end_date - start_date) interval_days end_date
      fuel start_date 0 = some (rows, evs) := hrun
  rw [List.pairwise_iff_get]
  intro a b hab
  obtain ⟨a, ha⟩ := a
  obtain ⟨b, hb⟩ := b
  have hab' : a < b := hab
  have hga := backtestLoop_get engine hook symbol (end_date - start_date) interval_days
    end_date fuel start_date 0 rows evs hrun' a ha
  have hgb := backtestLoop_get engine hook symbol (end_date - start_date) interval_days
    end_date fuel start_date 0 rows evs hrun' b hb
  rw [hga, hgb, stepRow_date, stepRow_date]
  have hmul : (a : ℤ) * interval_days < (b : ℤ) * interval_days := by
    apply mul_lt_mul_of_pos_right
    · exact_mod_cast hab'
    · omega
  linarith

/-- Witness for claim C9: in the reference scenario the first two dates are
in strict order. -/
theorem backtest_dates_strictly_increasing_witness :
    (mkRow 0 sampleDecision).date < (mkRow 7 sampleDecision).date := by
  have h := backtest_dates_strictly_increasing 3 "AAPL" 0 14 7 (constEngine sampleDecision)
    none scenarioRows scenarioEvents (by decide) (by rfl)
  simp only [scenarioRows] at h
  exact (List.pairwise_cons.mp h).1 _ (List.mem_cons_self _ _)

/-- Claim C10: a single-day range without a callback performs exactly one
engine call and, when it succeeds, yields exactly that one normal row; no
progress division is evaluated, so the zero-length span is harmless. -/
theorem backtest_single_day_without_hook (fuel : Nat) (symbol : String)
    (start_date interval_days : ℤ) (dec : Decision) (engine : Engine)
    (hfuel : 0 < fuel) (hi : 1 ≤ interval_days)
    (heng : engine symbol start_date = Except.ok dec) :
    historical_backtest fuel symbol start_date start_date interval_days engine none
      = some ([mkRow start_date dec], [BacktestEvent.engineCall symbol start_date]) := by
  obtain ⟨f, rfl⟩ : ∃ f, fuel = f + 1 := ⟨fuel - 1, by omega⟩
  show backtestLoop engine none symbol (start_date - start_date) interval_days start_date
      (f + 1) start_date 0 = _
  have hrec := backtestLoop_neg engine none symbol (start_date - start_date) interval_days
    start_date f (start_date + interval_days) (0 + interval_days) (by omega)
  simp only [backtestLoop, if_pos (le_refl start_date), hrec]
  simp [stepRow, stepBody, heng]

/-- Witness for claim C10 at a concrete single-day request. -/
theorem backtest_single_day_without_hook_witness :
    historical_backtest 1 "AAPL" 0 0 7 (constEngine sampleDecision) none
      = some ([mkRow 0 sampleDecision], [BacktestEvent.engineCall "AAPL" 0]) :=
  backtest_single_day_without_hook 1 "AAPL" 0 7 sampleDecision (constEngine sampleDecision)
    (by decide) (by decide) rfl
